import Mathlib

/-!
Verification of the lexical retrieval core of a local RAG engine
(word tokenizer, sliding-window chunkers, BM25 ranking index).

Texts are modelled as `List Char` (or, where the unit of measure matters,
as an arbitrary element list `List α`: the Rust code slices a flat sequence
of units — bytes — and the slicing algebra is unit-independent).
Rust `usize` values are modelled as `Nat`; `f64` scores as `ℝ`.
-/

namespace Rag

/-! ### Tokenizer (src/tokenizer.rs) -/

/-- Models Rust `c.is_alphanumeric() || c == '\''`.  `Char.isAlphanum` is the
Lean alphanumeric test; it agrees with the Rust predicate on ASCII text. -/
def isWordChar (c : Char) : Bool :=
  c.isAlphanum || c = '\''

/-- Embedding of `tokenize` (src/tokenizer.rs:7-12): split on every character
that is not a word character (keeping empty fragments, as Rust `str::split`
does), drop empty fragments, lowercase the rest.  `List.map Char.toLower`
models Rust `str::to_lowercase` (they agree on ASCII). -/
def tokenize (text : List Char) : List (List Char) :=
  ((text.splitOnP fun c => !(isWordChar c)).filter fun s => !s.isEmpty).map
    (List.map Char.toLower)

/-- Embedding of `token_count` (src/tokenizer.rs:15-19): same split and
filter, but only the count is taken. -/
def token_count (text : List Char) : Nat :=
  ((text.splitOnP fun c => !(isWordChar c)).filter fun s => !s.isEmpty).length

/-! ### Character-window chunker (src/chunker.rs) -/

/-- Embedding of the `while start < text.len()` loop of `chunk_text`
(src/chunker.rs:32-41).  The Rust loop advances `start` by a step that the
callers guarantee to be at least 1 (`step = sm1 + 1` here), so it runs at
most `text.len()` iterations; `fuel` is initialized to `text.length` by the
wrapper, making that bound explicit.  One iteration pushes
`text[start..min(start+chunk_size, len)]`, i.e. `(text.drop start).take
chunkSize`, and stops as soon as the window reaches the end of the text. -/
def chunkLoop (text : List α) (chunkSize sm1 : Nat) : Nat → Nat → List (List α)
  | 0, _ => []
  | fuel + 1, start =>
    if start < text.length then
      let chunk := (text.drop start).take chunkSize
      if text.length ≤ start + chunkSize then [chunk]
      else chunk :: chunkLoop text chunkSize sm1 fuel (start + (sm1 + 1))
    else []

/-- Embedding of `chunk_text` (src/chunker.rs:9-44): empty text or zero
chunk size give `[]`; a text no longer than `chunk_size` is returned whole;
otherwise the sliding window runs with
`step = if overlap ≥ chunk_size then 1 else chunk_size - overlap`. -/
def chunk_text (text : List α) (chunkSize overlap : Nat) : List (List α) :=
  if text.isEmpty then []
  else if chunkSize = 0 then []
  else if text.length ≤ chunkSize then [text]
  else
    let step := if chunkSize ≤ overlap then 1 else chunkSize - overlap
    chunkLoop text chunkSize (step - 1) text.length 0

/-- Embedding of the boundary-collection loop of `chunk_text_parallel`
(src/chunker.rs:76-85): identical control flow to `chunkLoop`, but it
records the `(start, end)` pairs instead of materializing the slices. -/
def boundaryLoop (len chunkSize sm1 : Nat) : Nat → Nat → List (Nat × Nat)
  | 0, _ => []
  | fuel + 1, start =>
    if start < len then
      let e := min (start + chunkSize) len
      if e = len then [(start, e)]
      else (start, e) :: boundaryLoop len chunkSize sm1 fuel (start + (sm1 + 1))
    else []

/-- Embedding of `chunk_text_parallel` (src/chunker.rs:57-92): boundaries
are computed sequentially, then every boundary pair is mapped to its slice
`text[start..end]`.  Rayon's `par_iter().map().collect()` preserves order,
so the parallel materialization is an order-preserving `map`. -/
def chunk_text_parallel (text : List α) (chunkSize overlap : Nat) : List (List α) :=
  if text.isEmpty || chunkSize = 0 then []
  else if text.length ≤ chunkSize then [text]
  else
    let step := if chunkSize ≤ overlap then 1 else chunkSize - overlap
    (boundaryLoop text.length chunkSize (step - 1) text.length 0).map
      fun p => (text.drop p.1).take (p.2 - p.1)

/-! ### Degenerate chunking (claim C6) -/

/-- Claim C6: `chunk_text` returns `[]` on empty text and on `chunk_size = 0`,
and returns the whole text as a single chunk whenever the non-empty text is
no longer than `chunk_size`, for every overlap. -/
theorem chunk_text_degenerate {α : Type} (t : List α) (chunkSize overlap : Nat)
    (h1 : t ≠ []) (h2 : t.length ≤ chunkSize) :
    chunk_text ([] : List α) chunkSize overlap = [] ∧
    chunk_text t 0 overlap = [] ∧
    chunk_text t chunkSize overlap = [t] := by
  have hcs : chunkSize ≠ 0 := by
    have := List.length_pos.mpr h1
    omega
  refine ⟨by simp [chunk_text], by simp [chunk_text], ?_⟩
  have hne : t.isEmpty = false := by
    simp [List.isEmpty_iff, h1]
  simp [chunk_text, hne, hcs, h2]

/-- Witness for C6 at `t = ['a']`, `chunkSize = 1`, `overlap = 5`. -/
theorem chunk_text_degenerate_witness :
    chunk_text ([] : List Char) 1 5 = [] ∧
    chunk_text ['a'] 0 5 = [] ∧
    chunk_text ['a'] 1 5 = [['a']] :=
  chunk_text_degenerate ['a'] 1 5 (by decide) (by decide)

/-! ### Tokenizer normalization (claim C8) -/

/-- Claim C8: `tokenize` splits on every non-word character, discards empty
fragments and lowercases the remaining fragments in order; `token_count`
counts exactly the tokens `tokenize` returns; the spec's concrete examples
hold, and `token_count "" = 0`; every produced token is non-empty. -/
theorem tokenize_spec :
    (∀ s : List Char, token_count s = (tokenize s).length) ∧
    tokenize "don't won't can't it's".toList =
      ["don't".toList, "won't".toList, "can't".toList, "it's".toList] ∧
    tokenize "GPT-4 BERT".toList = ["gpt".toList, "4".toList, "bert".toList] ∧
    token_count "".toList = 0 ∧
    ∀ s : List Char, ∀ t ∈ tokenize s, t ≠ [] := by
  refine ⟨?_, by decide, by decide, by decide, ?_⟩
  · intro s
    simp [tokenize, token_count]
  · intro s t ht
    simp only [tokenize, List.mem_map, List.mem_filter] at ht
    obtain ⟨u, ⟨_, hu⟩, rfl⟩ := ht
    simp only [Bool.not_eq_true', List.isEmpty_eq_false, List.isEmpty_iff] at hu
    simp [hu]

/-- Witness for C8's final conjunct at `s = t = "ab"`. -/
theorem tokenize_spec_witness :
    "ab".toList ∈ tokenize "ab".toList ∧ "ab".toList ≠ [] :=
  ⟨by decide, tokenize_spec.2.2.2.2 "ab".toList "ab".toList (by decide)⟩

/-! ### Parallel/sequential equivalence (claim C1) -/

/-- The chunk loop produces exactly the slices of the boundary loop's pairs:
both loops visit the same `start` offsets, and the slice of a recorded
boundary pair equals the chunk pushed by the sequential loop. -/
theorem chunkLoop_eq_map_boundaryLoop {α : Type} (text : List α) (cs sm1 : Nat) :
    ∀ fuel start,
      chunkLoop text cs sm1 fuel start
        = (boundaryLoop text.length cs sm1 fuel start).map
            fun p => (text.drop p.1).take (p.2 - p.1) := by
  intro fuel
  induction fuel with
  | zero => intro start; rfl
  | succ fuel ih =>
    intro start
    simp only [chunkLoop, boundaryLoop]
    by_cases hs : start < text.length
    · rw [if_pos hs, if_pos hs]
      by_cases hend : text.length ≤ start + cs
      · have hbc : min (start + cs) text.length = text.length := by omega
        rw [if_pos hend, if_pos hbc, hbc]
        have hlen : (text.drop start).length ≤ cs := by
          simp [List.length_drop]
          omega
        have hlen' : (text.drop start).length ≤ text.length - start := by
          simp [List.length_drop]
        simp [List.take_of_length_le hlen, List.take_of_length_le hlen']
      · have hbc : ¬ (min (start + cs) text.length = text.length) := by omega
        have hmin : min (start + cs) text.length = start + cs := by omega
        rw [if_neg hend, if_neg hbc]
        simp only [List.map_cons, hmin]
        have harith : start + cs - start = cs := by omega
        rw [harith, ih (start + (sm1 + 1))]
    · rw [if_neg hs, if_neg hs]
      rfl

/-- Claim C1: for every text and all parameters, `chunk_text_parallel`
returns the same chunk sequence as `chunk_text`, element for element. -/
theorem chunk_parallel_equiv {α : Type} (text : List α) (chunkSize overlap : Nat) :
    chunk_text text chunkSize overlap = chunk_text_parallel text chunkSize overlap := by
  unfold chunk_text chunk_text_parallel
  by_cases he : text.isEmpty
  · simp [he]
  · by_cases hcs : chunkSize = 0
    · simp [he, hcs]
    · by_cases hshort : text.length ≤ chunkSize
      · simp [he, hcs, hshort]
      · simp only [he, hcs, hshort, Bool.false_or, if_false,
          Bool.or_eq_true, decide_eq_true_eq]
        exact chunkLoop_eq_map_boundaryLoop text chunkSize _ text.length 0

/-! ### Content preservation (claim C2) -/

/-- The reconstruction operation of the content-preservation law: keep the
first chunk whole and drop the first `overlap` units of every later chunk,
then concatenate. -/
def reconstruct (overlap : Nat) : List (List α) → List α
  | [] => []
  | c :: rest => c ++ (rest.map fun d => d.drop overlap).flatten

/-- Dropping `overlap` units from every chunk the loop produces from `start`
on, and concatenating, yields exactly the text from `start + overlap` on:
each chunk's retained part `[start+overlap, start+chunk_size)` meets the
next chunk's retained part exactly (the step is `chunk_size - overlap`). -/
theorem chunkLoop_drop_flatten {α : Type} (text : List α) (cs ov : Nat) (hov : ov < cs) :
    ∀ fuel start, start < text.length → text.length - start ≤ fuel →
      ((chunkLoop text cs (cs - ov - 1) fuel start).map fun c => c.drop ov).flatten
        = text.drop (start + ov) := by
  intro fuel
  induction fuel with
  | zero => intro start h1 h2; omega
  | succ fuel ih =>
    intro start h1 h2
    simp only [chunkLoop, h1, if_true]
    by_cases hend : text.length ≤ start + cs
    · have hdt : ((text.drop start).take cs).drop ov
          = (text.drop (start + ov)).take (cs - ov) := by
        rw [List.drop_take, List.drop_drop]
      have hlen : (text.drop (start + ov)).length ≤ cs - ov := by
        simp [List.length_drop]
        omega
      simp [hend, hdt, List.take_of_length_le hlen]
    · have hstep : start + (cs - ov - 1 + 1) = start + (cs - ov) := by omega
      have hlt : start + (cs - ov) < text.length := by omega
      have hfuel : text.length - (start + (cs - ov)) ≤ fuel := by omega
      simp only [hend, if_false, List.map_cons, List.flatten_cons]
      rw [hstep, ih (start + (cs - ov)) hlt hfuel]
      have hdt : ((text.drop start).take cs).drop ov
          = (text.drop (start + ov)).take (cs - ov) := by
        rw [List.drop_take, List.drop_drop]
      have harith : start + (cs - ov) + ov = start + ov + (cs - ov) := by omega
      rw [hdt, harith,
        show text.drop (start + ov + (cs - ov)) = (text.drop (start + ov)).drop (cs - ov) from
          (List.drop_drop _ _ _).symm,
        List.take_append_drop]

/-- Reconstructing the chunk sequence the loop produces from a `start` that
is not the final window start yields the text from `start` on. -/
theorem chunkLoop_reconstruct {α : Type} (text : List α) (cs ov : Nat) (hov : ov < cs) :
    ∀ fuel start, start < text.length → text.length - start ≤ fuel →
      start + cs < text.length →
      reconstruct ov (chunkLoop text cs (cs - ov - 1) fuel start) = text.drop start := by
  intro fuel start h1 h2 h3
  match fuel with
  | 0 => omega
  | fuel + 1 =>
    have hend : ¬ (text.length ≤ start + cs) := by omega
    simp only [chunkLoop, h1, if_true, hend, if_false, reconstruct]
    have hstep : start + (cs - ov - 1 + 1) = start + (cs - ov) := by omega
    have hlt : start + (cs - ov) < text.length := by omega
    have hfuel : text.length - (start + (cs - ov)) ≤ fuel := by omega
    rw [hstep, chunkLoop_drop_flatten text cs ov hov fuel _ hlt hfuel]
    have harith : start + (cs - ov) + ov = start + cs := by omega
    rw [harith,
      show text.drop (start + cs) = (text.drop start).drop cs from
        (List.drop_drop _ _ _).symm,
      List.take_append_drop]

/-- Claim C2: for `0 < overlap < chunk_size < text length`, concatenating
chunk 0 with every later chunk minus its first `overlap` units reproduces
the original text exactly. -/
theorem chunk_reconstruct {α : Type} (text : List α) (chunkSize overlap : Nat)
    (h0 : 0 < overlap) (h1 : overlap < chunkSize) (h2 : chunkSize < text.length) :
    reconstruct overlap (chunk_text text chunkSize overlap) = text := by
  have hne : text.isEmpty = false := by
    simp only [List.isEmpty_eq_false, List.isEmpty_iff]
    intro h
    rw [h] at h2
    simp at h2
  have hcs : ¬ (chunkSize = 0) := by omega
  have hshort : ¬ (text.length ≤ chunkSize) := by omega
  have hovlt : ¬ (chunkSize ≤ overlap) := by omega
  simp only [chunk_text, hne, Bool.false_eq_true, if_false, hcs, hshort, hovlt]
  have := chunkLoop_reconstruct text chunkSize overlap h1 text.length 0
    (by omega) (by omega) (by omega)
  simpa using this

/-- Witness for C2 at `text = "abcde"`, `chunk_size = 3`, `overlap = 1`. -/
theorem chunk_reconstruct_witness :
    0 < 1 ∧ 1 < 3 ∧ 3 < (['a', 'b', 'c', 'd', 'e'] : List Char).length ∧
    reconstruct 1 (chunk_text (['a', 'b', 'c', 'd', 'e'] : List Char) 3 1)
      = ['a', 'b', 'c', 'd', 'e'] :=
  ⟨by decide, by decide, by decide,
    chunk_reconstruct ['a', 'b', 'c', 'd', 'e'] 3 1 (by decide) (by decide) (by decide)⟩

/-! ### Token-window chunker (src/chunker.rs:102-161) -/

/-- Embedding of the word-boundary scan of `chunk_by_tokens`
(src/chunker.rs:108-126): a left-to-right pass tracking whether the scanner
is inside a word, pushing a `(word_start, i)` span each time a word ends and
flushing an open word at the end of the text.  Rust iterates byte offsets of
`char_indices`; here `i` counts scalar positions, the same unit used for
slicing below, so spans select the same characters. -/
def wordSpansAux : List Char → Nat → Bool → Nat → List (Nat × Nat)
  | [], i, inWord, wordStart => if inWord then [(wordStart, i)] else []
  | c :: rest, i, inWord, wordStart =>
    if isWordChar c then
      if inWord then wordSpansAux rest (i + 1) true wordStart
      else wordSpansAux rest (i + 1) true i
    else if inWord then (wordStart, i) :: wordSpansAux rest (i + 1) false wordStart
    else wordSpansAux rest (i + 1) false wordStart

/-- Word spans of a text, as computed by `chunk_by_tokens`. -/
def wordSpans (text : List Char) : List (Nat × Nat) :=
  wordSpansAux text 0 false 0

/-- Models Rust `str::trim`: strip leading and trailing whitespace.
`Char.isWhitespace` agrees with Rust `char::is_whitespace` on ASCII. -/
def trim (text : List Char) : List Char :=
  ((text.dropWhile Char.isWhitespace).reverse.dropWhile Char.isWhitespace).reverse

/-- Embedding of the span-window loop of `chunk_by_tokens`
(src/chunker.rs:145-158): windows of `maxTokens` word spans advance by
`sm1 + 1`; each window emits the original text from the first included
word's start to the last included word's end.  As in `chunkLoop`, the
wrapper passes `fuel = spans.length`, a bound the step (at least 1)
guarantees.  Rust indexes `word_spans[i]` within bounds; `List.getD`
totalizes that lookup. -/
def tokenChunkLoop (text : List Char) (spans : List (Nat × Nat)) (maxTokens sm1 : Nat) :
    Nat → Nat → List (List Char)
  | 0, _ => []
  | fuel + 1, i =>
    if i < spans.length then
      let endIdx := min (i + maxTokens) spans.length
      let cstart := (spans.getD i (0, 0)).1
      let cend := (spans.getD (endIdx - 1) (0, 0)).2
      let chunk := (text.drop cstart).take (cend - cstart)
      if endIdx = spans.length then [chunk]
      else chunk :: tokenChunkLoop text spans maxTokens sm1 fuel (i + (sm1 + 1))
    else []

/-- Embedding of `chunk_by_tokens` (src/chunker.rs:102-161): empty text or
`max_tokens = 0` give `[]`; a text with no words gives `[]`; at most
`max_tokens` words give the single trimmed text; otherwise the span-window
loop runs with `step = if overlap_tokens ≥ max_tokens then 1 else
max_tokens - overlap_tokens`. -/
def chunk_by_tokens (text : List Char) (maxTokens overlapTokens : Nat) : List (List Char) :=
  if text.isEmpty || maxTokens = 0 then []
  else
    let spans := wordSpans text
    if spans.isEmpty then []
    else if spans.length ≤ maxTokens then [trim text]
    else
      let step := if maxTokens ≤ overlapTokens then 1 else maxTokens - overlapTokens
      tokenChunkLoop text spans maxTokens (step - 1) spans.length 0

/-- The spec's token-window example text. -/
def helloText : List Char := "Hello, World!   This is   a   test.".toList

/-- Counterexample to claim C7 as stated: the non-empty text `"!"` contains
zero words, hence fewer words than `max_tokens = 1`, yet `chunk_by_tokens`
returns the empty sequence rather than one chunk equal to the trimmed text. -/
theorem chunk_by_tokens_no_words_cex :
    (['!'] : List Char) ≠ [] ∧ 0 < 1 ∧ (wordSpans ['!']).length < 1 ∧
    chunk_by_tokens ['!'] 1 0 = [] ∧ trim ['!'] = ['!'] ∧
    chunk_by_tokens ['!'] 1 0 ≠ [trim ['!']] := by
  decide

/-- Claim C7 (amended): for every text containing at least one word and
every `max_tokens > 0`, if the text has fewer words than `max_tokens` then
`chunk_by_tokens` returns exactly one chunk, the trimmed original text
(internal punctuation and whitespace verbatim); in particular the spec's
example returns the one chunk `helloText`, which still contains the run
`"World!   This"`. -/
theorem chunk_by_tokens_single :
    (∀ (text : List Char) (maxTokens overlapTokens : Nat),
      0 < maxTokens → wordSpans text ≠ [] → (wordSpans text).length < maxTokens →
      chunk_by_tokens text maxTokens overlapTokens = [trim text]) ∧
    chunk_by_tokens helloText 100 0 = [helloText] ∧
    "Hello, ".toList ++ "World!   This".toList ++ " is   a   test.".toList = helloText := by
  refine ⟨?_, by decide, by decide⟩
  intro text maxTokens overlapTokens hmt hw hlen
  have hne : text.isEmpty = false := by
    simp only [List.isEmpty_eq_false, List.isEmpty_iff]
    intro h
    exact hw (by simp [wordSpans, wordSpansAux, h])
  have hmt0 : ¬ (maxTokens = 0) := by omega
  have hwe : (wordSpans text).isEmpty = false := by
    simp [List.isEmpty_eq_false, List.isEmpty_iff, hw]
  have hle : (wordSpans text).length ≤ maxTokens := by omega
  simp only [wordSpans] at hwe hle hw
  simp [chunk_by_tokens, hne, hmt0, wordSpans, hwe, hle, hw]

/-- Witness for C7's amended universal statement at the spec's example. -/
theorem chunk_by_tokens_single_witness :
    0 < 100 ∧ wordSpans helloText ≠ [] ∧ (wordSpans helloText).length < 100 ∧
    chunk_by_tokens helloText 100 0 = [trim helloText] :=
  ⟨by decide, by decide, by decide,
    chunk_by_tokens_single.1 helloText 100 0 (by decide) (by decide) (by decide)⟩

/-! ### Byte-offset windows versus UTF-8 character boundaries (claim C3)

Rust `text.len()` is the byte length of the UTF-8 encoding and
`text[start..end]` slices at byte offsets, panicking when an offset falls
inside a multi-byte character.  The following model makes the byte offsets
the chunkers use explicit. -/

/-- UTF-8 encoding of one character as its byte values, following the
standard 1-to-4-byte scheme (what Rust strings store). -/
def utf8EncodeChar (c : Char) : List Nat :=
  let n := c.toNat
  if n < 0x80 then [n]
  else if n < 0x800 then [0xC0 + n / 0x40, 0x80 + n % 0x40]
  else if n < 0x10000 then
    [0xE0 + n / 0x1000, 0x80 + n / 0x40 % 0x40, 0x80 + n % 0x40]
  else
    [0xF0 + n / 0x40000, 0x80 + n / 0x1000 % 0x40, 0x80 + n / 0x40 % 0x40,
      0x80 + n % 0x40]

/-- The byte sequence of a text's UTF-8 encoding: what Rust `&str` slicing
actually operates on. -/
def utf8Bytes (text : List Char) : List Nat :=
  (text.map utf8EncodeChar).flatten

/-- The byte offsets of a text's UTF-8 encoding that fall on a character
boundary: 0, and the cumulative byte sizes of each prefix of characters. -/
def utf8Boundaries : List Char → List Nat
  | [] => [0]
  | c :: rest => 0 :: (utf8Boundaries rest).map fun i => (utf8EncodeChar c).length + i

/-- A byte offset is a character boundary when it is one of the cumulative
character offsets. -/
def IsCharBoundary (text : List Char) (i : Nat) : Prop :=
  i ∈ utf8Boundaries text

instance (text : List Char) (i : Nat) : Decidable (IsCharBoundary text i) :=
  inferInstanceAs (Decidable (i ∈ utf8Boundaries text))

/-- The `(start, end)` byte windows `chunk_text` slices and
`chunk_text_parallel` precomputes, for a text of byte length `len`
(src/chunker.rs:32-41 and 76-85 compute exactly these pairs). -/
def chunkWindows (len chunkSize overlap : Nat) : List (Nat × Nat) :=
  if len = 0 || chunkSize = 0 then []
  else if len ≤ chunkSize then [(0, len)]
  else
    let step := if chunkSize ≤ overlap then 1 else chunkSize - overlap
    boundaryLoop len chunkSize (step - 1) len 0

/-- The windows really are the offsets at which the chunkers slice:
`chunk_text` over the byte sequence extracts exactly the `chunkWindows`
slices of the byte sequence. -/
theorem chunk_text_eq_windows (bytes : List Nat) (chunkSize overlap : Nat) :
    chunk_text bytes chunkSize overlap
      = (chunkWindows bytes.length chunkSize overlap).map
          fun p => (bytes.drop p.1).take (p.2 - p.1) := by
  rw [chunk_parallel_equiv]
  unfold chunk_text_parallel chunkWindows
  by_cases he : bytes.isEmpty
  · have h0 : bytes.length = 0 := by
      simpa [List.isEmpty_iff, List.length_eq_zero] using he
    simp [he, h0]
  · have h0 : ¬ (bytes.length = 0) := by
      simpa [List.isEmpty_eq_false, List.isEmpty_iff, ← List.length_eq_zero] using he
    by_cases hcs : chunkSize = 0
    · simp [he, hcs, h0]
    · by_cases hshort : bytes.length ≤ chunkSize
      · have : (bytes.drop 0).take (bytes.length - 0) = bytes := by
          simp [List.take_of_length_le]
        simp [he, hcs, h0, hshort, this]
      · simp [he, hcs, h0, hshort]

/-- The two-character text `"éé"` (each `'é'` is 2 bytes in UTF-8). -/
def eeText : List Char := ['é', 'é']

/-- Claim C3 fails on the code: on `"éé"` (4 bytes, boundaries 0, 2, 4) with
`chunk_size = 3`, `overlap = 0`, the chunkers compute byte windows
`[(0,3), (3,4)]`, and offset 3 falls strictly inside the second character's
2-byte encoding — the first emitted slice `[0xC3, 0xA9, 0xC3]` even ends
mid-character (Rust byte-slicing panics there).  This is the behavior the
spec itself flags as unintentionally unsafe. -/
theorem chunk_byte_boundary_bug :
    utf8Bytes eeText = [0xC3, 0xA9, 0xC3, 0xA9] ∧
    (utf8Bytes eeText).length = 4 ∧
    utf8Boundaries eeText = [0, 2, 4] ∧
    chunkWindows (utf8Bytes eeText).length 3 0 = [(0, 3), (3, 4)] ∧
    ¬ IsCharBoundary eeText 3 ∧
    chunk_text (utf8Bytes eeText) 3 0 = [[0xC3, 0xA9, 0xC3], [0xA9]] := by
  decide

/-! ### BM25 index (src/bm25.rs)

Scores are `f64` in Rust, modelled as `ℝ` with `Real.log` for `f64::ln`.
The `HashMap` statistics are modelled by their lookup functions with the
`unwrap_or(&0)` default: `df` maps a term to the number of documents
containing it, each inner `tf` map sends a term to its frequency in one
document. -/

structure BM25Index where
  df : List Char → Nat
  tf : List (List Char → Nat)
  doc_lengths : List Nat
  avg_dl : ℝ
  n_docs : Nat
  k1 : ℝ
  b : ℝ

/-- Embedding of `BM25Index::new` (src/bm25.rs:45-83).  The build loop
tokenizes each document once; the per-document frequency map counts each
token's occurrences, the `seen` set makes a document contribute at most once
to a term's document frequency, and the average length divides only when
the corpus is non-empty. -/
noncomputable def BM25Index.new (documents : List (List Char)) (k1 b : ℝ) : BM25Index where
  df := fun t => (documents.filter fun d => (tokenize d).contains t).length
  tf := documents.map fun d => fun t => (tokenize d).count t
  doc_lengths := documents.map fun d => (tokenize d).length
  avg_dl :=
    if 0 < documents.length then
      ((documents.map fun d => (tokenize d).length).sum : ℝ) / (documents.length : ℝ)
    else 0
  n_docs := documents.length
  k1 := k1
  b := b

/-- Embedding of the per-document scoring loop of `BM25Index::search`
(src/bm25.rs:94-114): fold over the query tokens, skipping tokens absent
from the document and otherwise adding `idf * tf_norm`. -/
noncomputable def BM25Index.scoreDoc (idx : BM25Index) (queryTokens : List (List Char))
    (d : Nat) : ℝ :=
  let doc_tf : List Char → Nat := idx.tf.getD d fun _ => 0
  let doc_len : ℝ := (idx.doc_lengths.getD d 0 : Nat)
  queryTokens.foldl
    (fun score token =>
      let tfv : ℝ := (doc_tf token : Nat)
      let dfv : ℝ := (idx.df token : Nat)
      if tfv = 0 then score
      else
        score +
          Real.log (((idx.n_docs : ℝ) - dfv + 0.5) / (dfv + 0.5) + 1) *
            (tfv * (idx.k1 + 1) /
              (tfv + idx.k1 * (1 - idx.b + idx.b * doc_len / idx.avg_dl))))
    0

/-- Embedding of `BM25Index::search` (src/bm25.rs:90-124): score every
document in index order, keep only strictly positive scores, sort by score
descending (Rust's stable `sort_by` with the reversed comparator is a
stable merge sort), truncate to `top_k`. -/
noncomputable def BM25Index.search (idx : BM25Index) (query : List Char) (top_k : Nat) :
    List (Nat × ℝ) :=
  let queryTokens := tokenize query
  let scores := (List.range idx.tf.length).filterMap fun d =>
    let s := idx.scoreDoc queryTokens d
    if 0 < s then some (d, s) else none
  (scores.mergeSort fun x y => decide (y.2 ≤ x.2)).take top_k

/-- Embedding of `BM25Index::__len__` (src/bm25.rs:127-129). -/
def BM25Index.size (idx : BM25Index) : Nat :=
  idx.n_docs

/-! ### Empty corpus (claim C9) -/

/-- Claim C9: building from the empty collection always succeeds (the
embedding is a total function), gives document count 0 and average length 0
through the guarded division, and `search` returns `[]` for every query and
every `top_k`. -/
theorem bm25_empty_corpus (k1 b : ℝ) (query : List Char) (top_k : Nat) :
    (BM25Index.new [] k1 b).size = 0 ∧
    (BM25Index.new [] k1 b).avg_dl = 0 ∧
    (BM25Index.new [] k1 b).search query top_k = [] := by
  refine ⟨rfl, by simp [BM25Index.new], ?_⟩
  simp [BM25Index.search, BM25Index.new, List.mergeSort_nil]

/-! ### The BM25 scoring formula (claim C4) -/

/-- Folding the skip-on-absent accumulation over a token list equals the sum
of the contributions of the tokens with non-zero count. -/
theorem foldl_contrib (cnt : List Char → Nat) (f : List Char → ℝ) :
    ∀ (l : List (List Char)) (x : ℝ),
      l.foldl (fun score t => if ((cnt t : ℝ)) = 0 then score else score + f t) x
        = x + ((l.filter fun t => cnt t ≠ 0).map f).sum := by
  intro l
  induction l with
  | nil => intro x; simp
  | cons t rest ih =>
    intro x
    rw [List.foldl_cons]
    by_cases h : cnt t = 0
    · have h' : ((cnt t : ℝ)) = 0 := by exact_mod_cast h
      have hp : ¬ ((decide (cnt t ≠ 0)) = true) := by simp [h]
      rw [if_pos h', ih, List.filter_cons, if_neg hp]
    · have h' : ¬ ((cnt t : ℝ) = 0) := by exact_mod_cast h
      have hp : (decide (cnt t ≠ 0)) = true := by simp [h]
      rw [if_neg h', ih, List.filter_cons, if_pos hp, List.map_cons, List.sum_cons,
        add_assoc]

/-- The claim's term score `idf(t) * tf_norm(t, D)` with every statistic
spelled out at corpus level: `df(t)` counts the documents containing `t`,
`f(t,D)` is the token count in `D`, `|D|` the token length of `D`, and
`avgdl` the average token length of the corpus. -/
noncomputable def bm25Contribution (documents : List (List Char)) (k1 b : ℝ)
    (doc : List Char) (t : List Char) : ℝ :=
  Real.log (((documents.length : ℝ)
      - ((documents.filter fun d => (tokenize d).contains t).length : ℝ) + 0.5)
    / (((documents.filter fun d => (tokenize d).contains t).length : ℝ) + 0.5) + 1)
  * (((tokenize doc).count t : ℝ) * (k1 + 1)
    / (((tokenize doc).count t : ℝ)
      + k1 * (1 - b + b * ((tokenize doc).length : ℝ)
          / (((documents.map fun d => (tokenize d).length).sum : ℝ)
            / (documents.length : ℝ)))))

/-- The score the search loop accumulates for document `d` of a built index
is the sum of `bm25Contribution` over the query tokens present in `d`. -/
theorem scoreDoc_new_eq (documents : List (List Char)) (k1 b : ℝ)
    (qt : List (List Char)) (d : Nat) (hd : d < documents.length) :
    (BM25Index.new documents k1 b).scoreDoc qt d
      = ((qt.filter fun t => (tokenize (documents.getD d [])).count t ≠ 0).map
          (bm25Contribution documents k1 b (documents.getD d []))).sum := by
  have hdm : d < (documents.map fun doc => fun t => (tokenize doc).count t).length := by
    simpa using hd
  have hdl : d < (documents.map fun doc => (tokenize doc).length).length := by
    simpa using hd
  have hget : documents.getD d [] = documents[d] := List.getD_eq_getElem documents [] hd
  have htf : (documents.map fun doc => fun t => (tokenize doc).count t).getD d (fun _ => 0)
      = fun t => (tokenize documents[d]).count t := by
    rw [List.getD_eq_getElem _ _ hdm, List.getElem_map]
  have hdlen : (documents.map fun doc => (tokenize doc).length).getD d 0
      = (tokenize documents[d]).length := by
    rw [List.getD_eq_getElem _ _ hdl, List.getElem_map]
  have hpos : 0 < documents.length := by omega
  simp only [BM25Index.scoreDoc, BM25Index.new, htf, hdlen, hget, if_pos hpos]
  rw [foldl_contrib, zero_add]
  rfl

/-- Claim C4: for an index built from `N` documents, the accumulated score
of document `d` against a query is the sum, over exactly the query tokens
present in `d` (absent tokens are skipped), of
`ln((N - df + 0.5)/(df + 0.5) + 1) * (f * (k1+1))/(f + k1 * (1 - b + b * len/avgdl))`. -/
theorem bm25_score_formula (documents : List (List Char)) (k1 b : ℝ)
    (query : List Char) (d : Nat) (hd : d < documents.length) :
    (BM25Index.new documents k1 b).scoreDoc (tokenize query) d
      = (((tokenize query).filter
            fun t => (tokenize (documents.getD d [])).count t ≠ 0).map
          (bm25Contribution documents k1 b (documents.getD d []))).sum :=
  scoreDoc_new_eq documents k1 b (tokenize query) d hd

/-- Witness for C4 at the one-document corpus `["a"]`, query `"a"`. -/
theorem bm25_score_formula_witness :
    0 < [(['a'] : List Char)].length ∧
    (BM25Index.new [(['a'] : List Char)] 1.2 0.75).scoreDoc (tokenize ['a']) 0
      = (((tokenize ['a']).filter
            fun t => (tokenize ([(['a'] : List Char)].getD 0 [])).count t ≠ 0).map
          (bm25Contribution [(['a'] : List Char)] 1.2 0.75
            ([(['a'] : List Char)].getD 0 []))).sum :=
  ⟨by decide, bm25_score_formula [['a']] 1.2 0.75 ['a'] 0 (by decide)⟩

/-! ### Shape of search results (claim C5) -/

/-- Claim C5: for every index, query and `top_k`, the search result has
length at most `top_k`, contains only documents whose accumulated score is
non-zero (each returned score is that document's accumulated score), and is
sorted by score descending. -/
theorem bm25_search_shape (idx : BM25Index) (query : List Char) (top_k : Nat) :
    (idx.search query top_k).length ≤ top_k ∧
    (∀ p ∈ idx.search query top_k,
      p.2 = idx.scoreDoc (tokenize query) p.1 ∧
        idx.scoreDoc (tokenize query) p.1 ≠ 0) ∧
    (idx.search query top_k).Pairwise fun x y => y.2 ≤ x.2 := by
  refine ⟨List.length_take_le _ _, ?_, ?_⟩
  · intro p hp
    have hp1 : p ∈ (((List.range idx.tf.length).filterMap fun d =>
        let s := idx.scoreDoc (tokenize query) d
        if 0 < s then some (d, s) else none).mergeSort
          fun x y => decide (y.2 ≤ x.2)) :=
      (List.take_sublist _ _).subset hp
    have hp2 : p ∈ ((List.range idx.tf.length).filterMap fun d =>
        let s := idx.scoreDoc (tokenize query) d
        if 0 < s then some (d, s) else none) :=
      (List.mergeSort_perm _ _).mem_iff.mp hp1
    rw [List.mem_filterMap] at hp2
    obtain ⟨d, _, hd2⟩ := hp2
    by_cases hs : 0 < idx.scoreDoc (tokenize query) d
    · rw [if_pos hs, Option.some_inj] at hd2
      subst hd2
      exact ⟨rfl, by intro h0; rw [h0] at hs; exact lt_irrefl 0 hs⟩
    · rw [if_neg hs] at hd2
      exact absurd hd2 (Option.noConfusion)
  · have hsorted : (((List.range idx.tf.length).filterMap fun d =>
        let s := idx.scoreDoc (tokenize query) d
        if 0 < s then some (d, s) else none).mergeSort
          fun x y => decide (y.2 ≤ x.2)).Pairwise
            fun x y => (decide (y.2 ≤ x.2) : Bool) := by
      apply List.sorted_mergeSort
      · intro a b c hab hbc
        simp only [decide_eq_true_eq] at *
        exact le_trans hbc hab
      · intro a b
        simp only [Bool.or_eq_true, decide_eq_true_eq]
        exact le_total b.2 a.2
    have := hsorted.sublist (List.take_sublist top_k _)
    exact this.imp fun h => by simpa using h

/-- Witness for C5 (search on a concretely built index). -/
theorem bm25_search_shape_witness :
    ((BM25Index.new [] 1.2 0.75).search ['a'] 3).length ≤ 3 :=
  (bm25_search_shape (BM25Index.new [] 1.2 0.75) ['a'] 3).1

/-! ### Only positively scored, token-sharing documents are returned (claim C10) -/

/-- Claim C10: for an index built with `k1 ≥ 0` and `0 ≤ b ≤ 1`, every pair
returned by `search` carries a strictly positive score, names a valid
document index, and that document shares at least one token with the
query. -/
theorem bm25_scores_positive (documents : List (List Char)) (k1 b : ℝ)
    (query : List Char) (top_k : Nat)
    (hk1 : 0 ≤ k1) (hb0 : 0 ≤ b) (hb1 : b ≤ 1) :
    ∀ p ∈ (BM25Index.new documents k1 b).search query top_k,
      0 < p.2 ∧ p.1 < documents.length ∧
      ∃ t ∈ tokenize query, t ∈ tokenize (documents.getD p.1 []) := by
  intro p hp
  set idx := BM25Index.new documents k1 b with hidx
  have hp1 : p ∈ (((List.range idx.tf.length).filterMap fun d =>
      let s := idx.scoreDoc (tokenize query) d
      if 0 < s then some (d, s) else none).mergeSort
        fun x y => decide (y.2 ≤ x.2)) :=
    (List.take_sublist _ _).subset hp
  have hp2 : p ∈ ((List.range idx.tf.length).filterMap fun d =>
      let s := idx.scoreDoc (tokenize query) d
      if 0 < s then some (d, s) else none) :=
    (List.mergeSort_perm _ _).mem_iff.mp hp1
  rw [List.mem_filterMap] at hp2
  obtain ⟨d, hdmem, hd2⟩ := hp2
  have hlen : idx.tf.length = documents.length := by
    simp [hidx, BM25Index.new]
  rw [List.mem_range, hlen] at hdmem
  by_cases hs : 0 < idx.scoreDoc (tokenize query) d
  · rw [if_pos hs, Option.some_inj] at hd2
    subst hd2
    refine ⟨hs, hdmem, ?_⟩
    by_contra hno
    push_neg at hno
    have hzero : idx.scoreDoc (tokenize query) d = 0 := by
      rw [hidx, scoreDoc_new_eq documents k1 b (tokenize query) d hdmem]
      have hfil : ((tokenize query).filter
          fun t => (tokenize (documents.getD d [])).count t ≠ 0) = [] := by
        rw [List.filter_eq_nil_iff]
        intro t ht
        simp only [ne_eq, decide_not, Bool.not_eq_true', decide_eq_false_iff_not,
          Decidable.not_not]
        exact List.count_eq_zero.mpr (hno t ht)
      rw [hfil]
      simp
    rw [hzero] at hs
    exact absurd hs (lt_irrefl 0)
  · rw [if_neg hs] at hd2
    exact absurd hd2 (Option.noConfusion)

/-- Witness for C10 at `k1 = 1.2`, `b = 0.75` on a one-document corpus. -/
theorem bm25_scores_positive_witness :
    (0 : ℝ) ≤ 1.2 ∧ (0 : ℝ) ≤ 0.75 ∧ (0.75 : ℝ) ≤ 1 ∧
    ∀ p ∈ (BM25Index.new [(['a'] : List Char)] 1.2 0.75).search ['a'] 5,
      0 < p.2 ∧ p.1 < [(['a'] : List Char)].length ∧
      ∃ t ∈ tokenize ['a'], t ∈ tokenize ([(['a'] : List Char)].getD p.1 []) :=
  ⟨by norm_num, by norm_num, by norm_num,
    bm25_scores_positive [['a']] 1.2 0.75 ['a'] 5 (by norm_num) (by norm_num) (by norm_num)⟩

end Rag
